import Mathlib

set_option maxRecDepth 4000

/-!
Shallow embedding of the variable-width IEEE754 bit-field model and decoder
from `src/lib.rs` (a seed web app).  Machine integers (`u64`, `usize`) are
modelled as `Nat` with explicit `% 2 ^ 64` where the Rust operation wraps,
and with `Option` where the Rust operation can panic (checked subtraction
underflow and shift amounts of 64 or more).  An `f64` is modelled by its
64-bit pattern, i.e. by the argument of `f64::from_bits` / the result of
`f64::to_bits`, which is a faithful bijection onto `f64` data including
every NaN payload.
-/

/-- `const BINARY_64_SIGNIFICAND_BITS: usize = 52` from `src/lib.rs`. -/
def BINARY_64_SIGNIFICAND_BITS : Nat := 52

/-- `const BINARY_64_EXPONENT_BITS: usize = 11` from `src/lib.rs`. -/
def BINARY_64_EXPONENT_BITS : Nat := 11

/-- `const BINARY_64_BIAS: usize = 1023` from `src/lib.rs`. -/
def BINARY_64_BIAS : Nat := 1023

/-- The modulus of `u64` arithmetic. -/
def w64 : Nat := 2 ^ 64

/-- Checked `u64`/`usize` subtraction: Rust `a - b` panics when `b > a`. -/
def sub? (a b : Nat) : Option Nat :=
  if b ≤ a then some (a - b) else none

/-- Checked `u64` addition: Rust `a + b` panics (in debug) on overflow. -/
def add64? (a b : Nat) : Option Nat :=
  if a + b < w64 then some (a + b) else none

/-- Checked `u64` shift-left: Rust `a << b` panics when `b ≥ 64`; otherwise
the shifted-out bits are silently discarded (wrap modulo `2 ^ 64`). -/
def shl64? (a b : Nat) : Option Nat :=
  if b < 64 then some (a * 2 ^ b % w64) else none

/-- The fold `.fold(0, |acc, &b| (acc << 1) | (if b { 1 } else { 0 }))` from
`Model::value`, on `u64` (the shift by 1 wraps modulo `2 ^ 64`). -/
def foldBits (bs : List Bool) : Nat :=
  bs.foldl (fun acc b => (acc * 2 % w64) ||| (if b then 1 else 0)) 0

/-- The mathematical MSB-first unsigned reading of a bit sequence
(the specification-side counterpart of `foldBits`, with no word size). -/
def bitsToNat (bs : List Bool) : Nat :=
  bs.foldl (fun acc b => 2 * acc + (if b then 1 else 0)) 0

/-- `struct Model` from `src/lib.rs`: one sign bit and MSB-first exponent
and significand bit vectors. -/
structure Model where
  sign_bit : Bool
  exponent_bits : List Bool
  significand_bits : List Bool
deriving DecidableEq

/-- Bit pattern of Rust `f64::NAN` (the canonical quiet NaN). -/
def nanBits : Nat := 0x7ff8000000000000

/-- Bit pattern of Rust `f64::INFINITY`. -/
def infBits : Nat := 0x7ff0000000000000

/-- Bit pattern of Rust `f64::NEG_INFINITY`. -/
def negInfBits : Nat := 0xfff0000000000000

/-- `Model::value` from `src/lib.rs`, returning the bit pattern of the
produced `f64` (the argument of the final `f64::from_bits`), or `none` on a
panic of the underlying Rust integer arithmetic.  The match on
`(all, any)` of the exponent bits, the bias `(1 << (len - 1)) - 1`, the two
MSB-first folds, and the packing
`sign << 63 | (if normal { (exp + (1023 - bias)) << 52 } else { 0 })
 | significand << (52 - sig_len)` are translated clause by clause. -/
def Model.value (m : Model) : Option Nat :=
  if m.exponent_bits.all (fun b => b) then
    some (if m.significand_bits.any (fun b => b) then nanBits
      else if m.sign_bit then negInfBits else infBits)
  else
    match shl64? 1 (m.exponent_bits.length - 1) with
    | none => none
    | some biasSucc =>
      let bias := biasSucc - 1
      let exp := foldBits m.exponent_bits
      let significand := foldBits m.significand_bits
      let sign : Nat := if m.sign_bit then 1 else 0
      let expPart : Option Nat :=
        if m.exponent_bits.any (fun b => b) then
          match sub? BINARY_64_BIAS bias with
          | none => none
          | some diff =>
            match add64? exp diff with
            | none => none
            | some expAdj => shl64? expAdj BINARY_64_SIGNIFICAND_BITS
        else some 0
      match expPart with
      | none => none
      | some ep =>
        match sub? BINARY_64_SIGNIFICAND_BITS m.significand_bits.length with
        | none => none
        | some shAmt =>
          match shl64? sign (BINARY_64_EXPONENT_BITS + BINARY_64_SIGNIFICAND_BITS),
                shl64? significand shAmt with
          | some signPart, some sigPart => some (signPart ||| ep ||| sigPart)
          | _, _ => none

/-- The initial model built by `init`: widths 11/52, all bits false. -/
def initModel : Model :=
  { sign_bit := false
    exponent_bits := List.replicate 11 false
    significand_bits := List.replicate 52 false }

/-- `enum Msg` from `src/lib.rs`. -/
inductive Msg where
  | SetExpSize (e : Nat)
  | SetSigSize (s : Nat)
  | ToggleBit (b : Nat)

/-- Rust `Vec::resize(n, false)`: truncate to `n` when shrinking, append
`false` elements when growing. -/
def listResize (l : List Bool) (n : Nat) : List Bool :=
  if l.length < n then l ++ List.replicate (n - l.length) false else l.take n

/-- `update` from `src/lib.rs`, as a pure state transformer.  `ToggleBit b`
follows `iter::once(&mut sign).chain(&mut exponent).chain(&mut significand)
.nth(b)`: index 0 is the sign, indices `1..=e` the exponent bits, the next
`s` indices the significand bits, and an out-of-range index finds nothing
(`List.set` past the end is the identity, matching `nth` returning `None`). -/
def update (msg : Msg) (m : Model) : Model :=
  match msg with
  | Msg.SetExpSize e => { m with exponent_bits := listResize m.exponent_bits e }
  | Msg.SetSigSize s => { m with significand_bits := listResize m.significand_bits s }
  | Msg.ToggleBit b =>
    if b = 0 then
      { m with sign_bit := !m.sign_bit }
    else if b - 1 < m.exponent_bits.length then
      let e := m.exponent_bits.set (b - 1) (!(m.exponent_bits.getD (b - 1) false))
      { m with exponent_bits := e }
    else
      let j := b - 1 - m.exponent_bits.length
      let s := m.significand_bits.set j (!(m.significand_bits.getD j false))
      { m with significand_bits := s }

/-- The MSB-first concatenation sign ‖ exponent ‖ significand read as an
unsigned integer: the standard packed bit pattern of a model. -/
def packedBits (m : Model) : Nat :=
  bitsToNat (m.sign_bit :: (m.exponent_bits ++ m.significand_bits))

/-- `f64::abs` at bit-pattern level: clears bit 63 of a 64-bit pattern. -/
def absBits (v : Nat) : Nat := v % 2 ^ 63

/-- Biased exponent field of a nonnegative 64-bit pattern. -/
def expField (p : Nat) : Nat := p / 2 ^ 52

/-- Significand field of a 64-bit pattern. -/
def sigField (p : Nat) : Nat := p % 2 ^ 52

/-- Whether a nonnegative 64-bit pattern encodes a NaN. -/
def isNaNBits (p : Nat) : Bool := expField p == 2047 && sigField p != 0

/-- Rust `f64` comparison `<` restricted to nonnegative operands given as
bit patterns (the only comparisons `view_value` performs, after `abs`):
`false` whenever either side is NaN, otherwise the IEEE754 order, which on
nonnegative patterns coincides with the unsigned order of the patterns. -/
def f64LtPos (a b : Nat) : Bool := !isNaNBits a && !isNaNBits b && decide (a < b)

/-- Rust `f64` comparison `<=` on nonnegative bit patterns. -/
def f64LePos (a b : Nat) : Bool := !isNaNBits a && !isNaNBits b && decide (a ≤ b)

/-- Rust `f64` comparison `==` on nonnegative bit patterns. -/
def f64EqPos (a b : Nat) : Bool := !isNaNBits a && !isNaNBits b && decide (a = b)

/-- Bit pattern of the `f64` literal `1.0e-10` in `view_value`: the nearest
double to 10⁻¹⁰, namely 7737125245533627 · 2⁻⁸⁶ (see the `toRatPos`
boundary lemmas below, which pin this value down). -/
def bits1em10 : Nat := 989 * 2 ^ 52 + 3233525618163131

/-- Bit pattern of the `f64` literal `1.0e10` in `view_value`: 10¹⁰ is
exactly representable as 5242880000000000 · 2⁻¹⁹. -/
def bits1e10 : Nat := 1056 * 2 ^ 52 + 739280372629504

/-- Bit pattern of the double `123.0`. -/
def bits123 : Nat := 1029 * 2 ^ 52 + 4151755906482176

/-- Bit pattern of the double `1.0e12`. -/
def bits1e12 : Nat := 1062 * 2 ^ 52 + 3688400372629504

/-- The notation choice of `view_value` from `src/lib.rs`, as a function of
the decoded 64-bit pattern: `true` means fixed/short decimal notation
(`format!("{:?}", value)`), `false` means scientific (`format!("{:e}",
value)`).  Translates `abs_val == 0.0 || (1.0e-10..1.0e10).contains(&abs_val)`,
where `Range::contains` is `start <= item && item < end`. -/
def usesFixedNotation (v : Nat) : Bool :=
  f64EqPos (absBits v) 0
    || (f64LePos bits1em10 (absBits v) && f64LtPos (absBits v) bits1e10)

/-- The exact rational value of a finite nonnegative `f64` bit pattern:
subnormals are `sig · 2⁻¹⁰⁷⁴`, normals `(2⁵² + sig) · 2^(exp - 1075)`. -/
def toRatPos (p : Nat) : ℚ :=
  if expField p = 0 then (sigField p : ℚ) * 2 ^ (-1074 : ℤ)
  else ((2 ^ 52 + sigField p : ℕ) : ℚ) * 2 ^ ((expField p : ℤ) - 1075)

example : initModel.value = some 0 := by decide

example :
    (Model.mk true (List.replicate 11 false) (List.replicate 52 false)).value
      = some (2 ^ 63) := by decide

example :
    (Model.mk false
      ([true, false, false, false, false, false, false, false, false, false, false])
      (List.replicate 52 false)).value = some 0x4000000000000000 := by decide

example :
    (Model.mk false (List.replicate 11 true) (List.replicate 52 false)).value
      = some infBits := by decide

example :
    (Model.mk true (List.replicate 11 true)
      (List.replicate 51 false ++ [true])).value = some nanBits := by decide

/-! ### Arithmetic bridge lemmas for the MSB-first bit readings -/

theorem bitsToNat_foldl (bs : List Bool) (a : Nat) :
    bs.foldl (fun acc b => 2 * acc + (if b then 1 else 0)) a
      = a * 2 ^ bs.length + bitsToNat bs := by
  induction bs generalizing a with
  | nil => simp [bitsToNat]
  | cons b t ih =>
    simp only [List.foldl_cons, bitsToNat, List.length_cons]
    rw [ih, ih (2 * 0 + (if b then 1 else 0))]
    ring

theorem bitsToNat_cons (b : Bool) (t : List Bool) :
    bitsToNat (b :: t) = (if b then 1 else 0) * 2 ^ t.length + bitsToNat t := by
  show List.foldl _ (2 * 0 + (if b then 1 else 0)) t = _
  rw [bitsToNat_foldl]
  ring

theorem bitVal_false : (if (false : Bool) = true then (1 : Nat) else 0) = 0 := rfl

theorem bitVal_true : (if (true : Bool) = true then (1 : Nat) else 0) = 1 := rfl

theorem bitsToNat_lt (bs : List Bool) : bitsToNat bs < 2 ^ bs.length := by
  induction bs with
  | nil => simp [bitsToNat]
  | cons b t ih =>
    have hp : (2 : Nat) ^ (b :: t).length = 2 ^ t.length * 2 := by
      rw [List.length_cons, pow_succ]
    cases b
    · rw [bitsToNat_cons, bitVal_false]
      omega
    · rw [bitsToNat_cons, bitVal_true]
      omega

theorem bitsToNat_append (xs ys : List Bool) :
    bitsToNat (xs ++ ys) = bitsToNat xs * 2 ^ ys.length + bitsToNat ys := by
  induction xs with
  | nil => simp [bitsToNat]
  | cons b t ih =>
    rw [List.cons_append, bitsToNat_cons, bitsToNat_cons, ih,
      List.length_append, pow_add]
    ring

theorem bitsToNat_eq_zero_iff (bs : List Bool) :
    bitsToNat bs = 0 ↔ bs.any (fun b => b) = false := by
  induction bs with
  | nil => simp [bitsToNat]
  | cons b t ih =>
    have hp := Nat.two_pow_pos t.length
    cases b
    · rw [bitsToNat_cons, bitVal_false]
      simpa using ih
    · rw [bitsToNat_cons, bitVal_true]
      simp only [List.any_cons]
      constructor
      · intro h; omega
      · intro h; simp at h

theorem bitsToNat_succ_lt_of_not_all (bs : List Bool)
    (h : bs.all (fun b => b) = false) : bitsToNat bs + 1 < 2 ^ bs.length := by
  induction bs with
  | nil => simp at h
  | cons b t ih =>
    have hp : (2 : Nat) ^ (b :: t).length = 2 ^ t.length * 2 := by
      rw [List.length_cons, pow_succ]
    cases b
    · have := bitsToNat_lt t
      rw [bitsToNat_cons, bitVal_false]
      omega
    · simp only [List.all_cons, Bool.true_and] at h
      have := ih h
      rw [bitsToNat_cons, bitVal_true]
      omega

theorem bitsToNat_all_true (bs : List Bool)
    (h : bs.all (fun b => b) = true) : bitsToNat bs = 2 ^ bs.length - 1 := by
  induction bs with
  | nil => simp [bitsToNat]
  | cons b t ih =>
    have hp : (2 : Nat) ^ (b :: t).length = 2 ^ t.length * 2 := by
      rw [List.length_cons, pow_succ]
    have hp2 := Nat.two_pow_pos t.length
    simp only [List.all_cons] at h
    obtain ⟨hb, ht⟩ := Bool.and_eq_true_iff.mp h
    subst hb
    rw [bitsToNat_cons, bitVal_true, ih ht]
    omega

theorem foldBits_go (bs : List Bool) (a : Nat) :
    bs.foldl (fun acc b => acc * 2 % w64 ||| (if b then 1 else 0)) (a % w64)
      = bs.foldl (fun acc b => 2 * acc + (if b then 1 else 0)) a % w64 := by
  induction bs generalizing a with
  | nil => simp
  | cons b t ih =>
    simp only [List.foldl_cons]
    have h4 : 2 * a % w64 = 2 * (a % 2 ^ 63) := by
      show 2 * a % (2 * 2 ^ 63) = _
      exact Nat.mul_mod_mul_left 2 a (2 ^ 63)
    have h1 : a % w64 * 2 % w64 = 2 * (a % 2 ^ 63) := by
      rw [Nat.mod_mul_mod, Nat.mul_comm a 2, h4]
    have hi : (if b = true then (1 : Nat) else 0) ≤ 1 := by
      cases b <;> decide
    have h2 : (if b = true then (1 : Nat) else 0) < 2 ^ 1 := by omega
    have h3 : 2 * (a % 2 ^ 63) + (if b = true then (1 : Nat) else 0)
        = 2 * (a % 2 ^ 63) ||| (if b = true then (1 : Nat) else 0) := by
      have := Nat.mul_add_lt_is_or h2 (a % 2 ^ 63)
      simpa using this
    have hlt : a % 2 ^ 63 < 2 ^ 63 := Nat.mod_lt _ (by norm_num)
    have hstep : a % w64 * 2 % w64 ||| (if b = true then (1 : Nat) else 0)
        = (2 * a + (if b = true then (1 : Nat) else 0)) % w64 := by
      have h5 : (2 * a + (if b = true then (1 : Nat) else 0)) % w64
          = 2 * (a % 2 ^ 63) + (if b = true then (1 : Nat) else 0) := by
        rw [Nat.add_mod, h4]
        have hi2 : (if b = true then (1 : Nat) else 0) % w64
            = (if b = true then (1 : Nat) else 0) := by
          apply Nat.mod_eq_of_lt
          have : (1 : Nat) < w64 := by norm_num [w64]
          omega
        rw [hi2]
        apply Nat.mod_eq_of_lt
        have hw : w64 = 2 * 2 ^ 63 := by norm_num [w64]
        omega
      rw [h1, h5, h3]
    rw [hstep, ih]

theorem foldBits_eq (bs : List Bool) (h : bs.length ≤ 64) :
    foldBits bs = bitsToNat bs := by
  have h0 : (0 : Nat) = 0 % w64 := by norm_num [w64]
  have := foldBits_go bs 0
  rw [← h0] at this
  rw [foldBits, bitsToNat] at *
  rw [this, Nat.mod_eq_of_lt]
  calc bs.foldl (fun acc b => 2 * acc + (if b then 1 else 0)) 0
      < 2 ^ bs.length := bitsToNat_lt bs
    _ ≤ 2 ^ 64 := Nat.pow_le_pow_right (by norm_num) h

/-- Three disjoint bit fields packed with `|||` add up. -/
theorem or_fields_eq_add (sg ef sf : Nat) (hef : ef < 2 ^ 11) (hsf : sf < 2 ^ 52) :
    sg * 2 ^ 63 ||| ef * 2 ^ 52 ||| sf = sg * 2 ^ 63 + ef * 2 ^ 52 + sf := by
  have h1 : (2 : Nat) ^ 52 * ef + sf = 2 ^ 52 * ef ||| sf := Nat.mul_add_lt_is_or hsf ef
  have hlt : (2 : Nat) ^ 52 * ef + sf < 2 ^ 63 := by
    have h3 : (2 : Nat) ^ 52 * ef ≤ 2 ^ 52 * (2 ^ 11 - 1) := by
      apply Nat.mul_le_mul_left
      omega
    have h4 : (2 : Nat) ^ 52 * (2 ^ 11 - 1) + 2 ^ 52 = 2 ^ 63 := by norm_num
    omega
  have h5 : (2 : Nat) ^ 63 * sg + (2 ^ 52 * ef + sf) = 2 ^ 63 * sg ||| (2 ^ 52 * ef + sf) :=
    Nat.mul_add_lt_is_or hlt sg
  rw [Nat.or_assoc, Nat.mul_comm ef (2 ^ 52), Nat.mul_comm sg (2 ^ 63), ← h1, ← h5]
  omega

/-- Closed-form evaluation of `Model.value` on the non-special branch, for
widths in the documented ranges. -/
theorem value_eval (m : Model)
    (he1 : 1 ≤ m.exponent_bits.length) (he11 : m.exponent_bits.length ≤ 11)
    (hs52 : m.significand_bits.length ≤ 52)
    (hall : m.exponent_bits.all (fun b => b) = false) :
    m.value = some ((if m.sign_bit then 1 else 0) * 2 ^ 63
      + (if m.exponent_bits.any (fun b => b) then
          bitsToNat m.exponent_bits + 1023 - (2 ^ (m.exponent_bits.length - 1) - 1)
         else 0) * 2 ^ 52
      + bitsToNat m.significand_bits * 2 ^ (52 - m.significand_bits.length)) := by
  have hexp1 := bitsToNat_succ_lt_of_not_all _ hall
  have hsig := bitsToNat_lt m.significand_bits
  have hpe : (2 : Nat) ^ m.exponent_bits.length
      = 2 * 2 ^ (m.exponent_bits.length - 1) := by
    conv_lhs =>
      rw [show m.exponent_bits.length = (m.exponent_bits.length - 1) + 1 by omega]
    rw [pow_succ]
    ring
  have hple : (2 : Nat) ^ (m.exponent_bits.length - 1) ≤ 2 ^ 10 :=
    Nat.pow_le_pow_right (by norm_num) (by omega)
  have hpos : 0 < (2 : Nat) ^ (m.exponent_bits.length - 1) := Nat.two_pow_pos _
  have hsle : (2 : Nat) ^ m.significand_bits.length ≤ 2 ^ 52 :=
    Nat.pow_le_pow_right (by norm_num) hs52
  have hs2 : (2 : Nat) ^ m.significand_bits.length
      * 2 ^ (52 - m.significand_bits.length) = 2 ^ 52 := by
    rw [← pow_add]
    congr 1
    omega
  have h_shl1 : shl64? 1 (m.exponent_bits.length - 1)
      = some (2 ^ (m.exponent_bits.length - 1)) := by
    rw [shl64?, if_pos (by omega)]
    congr 1
    rw [one_mul]
    apply Nat.mod_eq_of_lt
    have : (2 : Nat) ^ 10 < w64 := by norm_num [w64]
    omega
  have h_sub1 : sub? BINARY_64_BIAS (2 ^ (m.exponent_bits.length - 1) - 1)
      = some (1023 - (2 ^ (m.exponent_bits.length - 1) - 1)) := by
    rw [sub?, if_pos (by show _ ≤ 1023; omega), BINARY_64_BIAS]
  have h_foldE : foldBits m.exponent_bits = bitsToNat m.exponent_bits :=
    foldBits_eq _ (by omega)
  have h_foldS : foldBits m.significand_bits = bitsToNat m.significand_bits :=
    foldBits_eq _ (by omega)
  have h_add : add64? (bitsToNat m.exponent_bits)
      (1023 - (2 ^ (m.exponent_bits.length - 1) - 1))
      = some (bitsToNat m.exponent_bits
          + (1023 - (2 ^ (m.exponent_bits.length - 1) - 1))) := by
    rw [add64?, if_pos]
    have : (2 : Nat) ^ 11 < w64 := by norm_num [w64]
    have h2 : (2 : Nat) ^ m.exponent_bits.length ≤ 2 ^ 11 :=
      Nat.pow_le_pow_right (by norm_num) he11
    omega
  have hefLt : bitsToNat m.exponent_bits
      + (1023 - (2 ^ (m.exponent_bits.length - 1) - 1)) < 2 ^ 11 := by
    have : (2 : Nat) ^ 11 = 2048 := by norm_num
    omega
  have h_shlE : shl64? (bitsToNat m.exponent_bits
      + (1023 - (2 ^ (m.exponent_bits.length - 1) - 1))) BINARY_64_SIGNIFICAND_BITS
      = some ((bitsToNat m.exponent_bits
          + (1023 - (2 ^ (m.exponent_bits.length - 1) - 1))) * 2 ^ 52) := by
    rw [shl64?]
    rw [if_pos (by rw [BINARY_64_SIGNIFICAND_BITS]; omega)]
    rw [BINARY_64_SIGNIFICAND_BITS]
    congr 1
    apply Nat.mod_eq_of_lt
    have h2 : (2 : Nat) ^ 11 * 2 ^ 52 < w64 := by norm_num [w64]
    have h3 := Nat.mul_lt_mul_right (Nat.two_pow_pos 52) |>.mpr hefLt
    omega
  have h_sub2 : sub? BINARY_64_SIGNIFICAND_BITS m.significand_bits.length
      = some (52 - m.significand_bits.length) := by
    rw [sub?, if_pos]
    rw [BINARY_64_SIGNIFICAND_BITS]
    exact hs52
  have h_shlSign : shl64? (if m.sign_bit then 1 else 0)
      (BINARY_64_EXPONENT_BITS + BINARY_64_SIGNIFICAND_BITS)
      = some ((if m.sign_bit then 1 else 0) * 2 ^ 63) := by
    rw [shl64?, BINARY_64_EXPONENT_BITS, BINARY_64_SIGNIFICAND_BITS,
      if_pos (by norm_num)]
    congr 1
    apply Nat.mod_eq_of_lt
    have : (2 : Nat) ^ 63 < w64 := by norm_num [w64]
    cases m.sign_bit <;> simp <;> omega
  have h_shlS : shl64? (bitsToNat m.significand_bits)
      (52 - m.significand_bits.length)
      = some (bitsToNat m.significand_bits
          * 2 ^ (52 - m.significand_bits.length)) := by
    rw [shl64?, if_pos (by omega)]
    congr 1
    apply Nat.mod_eq_of_lt
    have h2 : bitsToNat m.significand_bits * 2 ^ (52 - m.significand_bits.length)
        < 2 ^ 52 := by
      calc bitsToNat m.significand_bits * 2 ^ (52 - m.significand_bits.length)
          < 2 ^ m.significand_bits.length * 2 ^ (52 - m.significand_bits.length) :=
            Nat.mul_lt_mul_right (Nat.two_pow_pos _) |>.mpr hsig
        _ = 2 ^ 52 := hs2
    have : (2 : Nat) ^ 52 < w64 := by norm_num [w64]
    omega
  have hsfLt : bitsToNat m.significand_bits * 2 ^ (52 - m.significand_bits.length)
      < 2 ^ 52 := by
    calc bitsToNat m.significand_bits * 2 ^ (52 - m.significand_bits.length)
        < 2 ^ m.significand_bits.length * 2 ^ (52 - m.significand_bits.length) :=
          Nat.mul_lt_mul_right (Nat.two_pow_pos _) |>.mpr hsig
      _ = 2 ^ 52 := hs2
  unfold Model.value
  rw [hall]
  by_cases hany : m.exponent_bits.any (fun b => b) = true
  · simp only [Bool.false_eq_true, if_false, h_shl1, hany, if_true, h_foldE,
      h_foldS, h_sub1, h_add, h_shlE, h_sub2, h_shlSign, h_shlS]
    rw [or_fields_eq_add _ _ _ hefLt hsfLt]
    exact congrArg some (by omega)
  · have hany' : m.exponent_bits.any (fun b => b) = false := by
      cases h : m.exponent_bits.any (fun b => b)
      · rfl
      · exact absurd h hany
    simp only [Bool.false_eq_true, if_false, h_shl1, hany', h_foldE,
      h_foldS, h_sub1, h_add, h_shlE, h_sub2, h_shlSign, h_shlS]
    have hz : (if m.sign_bit then (1 : Nat) else 0) * 2 ^ 63 ||| 0
        ||| bitsToNat m.significand_bits * 2 ^ (52 - m.significand_bits.length)
        = (if m.sign_bit then (1 : Nat) else 0) * 2 ^ 63
          + 0 * 2 ^ 52
          + bitsToNat m.significand_bits * 2 ^ (52 - m.significand_bits.length) := by
      rw [show (0 : Nat) = 0 * 2 ^ 52 from (Nat.zero_mul _).symm]
      exact or_fields_eq_add _ _ _ (by norm_num) hsfLt
    rw [hz]


/-- Evaluation of `Model.value` on the all-ones-exponent (special) branch. -/
theorem value_special (m : Model)
    (hall : m.exponent_bits.all (fun b => b) = true) :
    m.value = some (if m.significand_bits.any (fun b => b) then nanBits
      else if m.sign_bit then negInfBits else infBits) := by
  unfold Model.value
  rw [hall, if_pos rfl]

/-- C3: for exponent width in [1,11] and significand width in [1,52], when
every exponent bit is true, decode returns NaN if some significand bit is
true, +Infinity if all significand bits are false and the sign is false,
and -Infinity if all significand bits are false and the sign is true. -/
theorem decode_allones_special_values (m : Model)
    (he1 : 1 ≤ m.exponent_bits.length) (he11 : m.exponent_bits.length ≤ 11)
    (hs1 : 1 ≤ m.significand_bits.length) (hs52 : m.significand_bits.length ≤ 52)
    (hall : m.exponent_bits.all (fun b => b) = true) :
    (m.significand_bits.any (fun b => b) = true → m.value = some nanBits)
    ∧ (m.significand_bits.any (fun b => b) = false → m.sign_bit = false →
        m.value = some infBits)
    ∧ (m.significand_bits.any (fun b => b) = false → m.sign_bit = true →
        m.value = some negInfBits) := by
  have hv := value_special m hall
  refine ⟨fun h1 => ?_, fun h1 h2 => ?_, fun h1 h2 => ?_⟩
  · rw [h1, if_pos rfl] at hv
    exact hv
  · rw [h1, h2] at hv
    simpa using hv
  · rw [h1, h2] at hv
    simpa using hv

theorem decode_allones_special_values_witness :
    (Model.mk true (List.replicate 11 true) (List.replicate 52 false)).value
      = some negInfBits :=
  (decode_allones_special_values
    (Model.mk true (List.replicate 11 true) (List.replicate 52 false))
    (by decide) (by decide) (by decide) (by decide) (by decide)).2.2
    (by decide) rfl

/-- C2: for exponent width e in [1,11] and significand width s in [1,52],
when the exponent bits are not all true, the decoded bit pattern has the
sign in bit 63, the 11-bit exponent field equal to
exp_raw - (2^(e-1) - 1) + 1023 when exp_raw ≠ 0 and to 0 when exp_raw = 0,
and the 52-bit significand field equal to sig_raw shifted left by 52 - s,
where exp_raw and sig_raw are the MSB-first readings of the regions. -/
theorem decode_normal_field_layout (m : Model)
    (he1 : 1 ≤ m.exponent_bits.length) (he11 : m.exponent_bits.length ≤ 11)
    (hs1 : 1 ≤ m.significand_bits.length) (hs52 : m.significand_bits.length ≤ 52)
    (hall : m.exponent_bits.all (fun b => b) = false) :
    m.value = some ((if m.sign_bit then 1 else 0) * 2 ^ 63
      + (if bitsToNat m.exponent_bits ≠ 0 then
          bitsToNat m.exponent_bits + 1023 - (2 ^ (m.exponent_bits.length - 1) - 1)
         else 0) * 2 ^ 52
      + bitsToNat m.significand_bits * 2 ^ (52 - m.significand_bits.length)) := by
  rw [value_eval m he1 he11 hs52 hall]
  by_cases hz : bitsToNat m.exponent_bits = 0
  · have hany : m.exponent_bits.any (fun b => b) = false :=
      (bitsToNat_eq_zero_iff _).mp hz
    rw [hany, if_neg (show ¬bitsToNat m.exponent_bits ≠ 0 from fun h => h hz)]
    simp
  · have hany : m.exponent_bits.any (fun b => b) = true := by
      cases h : m.exponent_bits.any (fun b => b)
      · exact absurd ((bitsToNat_eq_zero_iff _).mpr h) hz
      · rfl
    rw [hany, if_pos hz, if_pos rfl]

theorem decode_normal_field_layout_witness :
    (Model.mk true [false, true] [true, false, false]).value
      = some (2 ^ 63 + 1023 * 2 ^ 52 + 2 ^ 51) := by
  rw [decode_normal_field_layout (Model.mk true [false, true] [true, false, false])
    (by decide) (by decide) (by decide) (by decide) (by decide)]
  decide

/-- C4: decode is total for exponent width in [1,11] and significand width
in [1,52]: every bit assignment produces a defined value, with no panic in
the underlying integer arithmetic (`Model.value` never returns `none`). -/
theorem decode_total (m : Model)
    (he1 : 1 ≤ m.exponent_bits.length) (he11 : m.exponent_bits.length ≤ 11)
    (hs1 : 1 ≤ m.significand_bits.length) (hs52 : m.significand_bits.length ≤ 52) :
    ∃ v, m.value = some v := by
  cases hall : m.exponent_bits.all (fun b => b)
  · exact ⟨_, value_eval m he1 he11 hs52 hall⟩
  · exact ⟨_, value_special m hall⟩

theorem decode_total_witness : ∃ v, initModel.value = some v :=
  decode_total initModel (by decide) (by decide) (by decide) (by decide)

/-- C5: for widths in range, when every exponent and significand bit is
false, decode returns +0.0 (pattern 0) if the sign bit is false and -0.0
(pattern 2^63, only the sign bit set) if the sign bit is true. -/
theorem decode_signed_zero (m : Model)
    (he1 : 1 ≤ m.exponent_bits.length) (he11 : m.exponent_bits.length ≤ 11)
    (hs1 : 1 ≤ m.significand_bits.length) (hs52 : m.significand_bits.length ≤ 52)
    (hexp : m.exponent_bits.any (fun b => b) = false)
    (hsig : m.significand_bits.any (fun b => b) = false) :
    m.value = some (if m.sign_bit then 2 ^ 63 else 0) := by
  have hall : m.exponent_bits.all (fun b => b) = false := by
    cases h : m.exponent_bits.all (fun b => b)
    · rfl
    · exfalso
      have h1 := bitsToNat_all_true _ h
      have h2 := (bitsToNat_eq_zero_iff _).mpr hexp
      have h3 : (2 : Nat) ^ 1 ≤ 2 ^ m.exponent_bits.length :=
        Nat.pow_le_pow_right (by norm_num) he1
      have h4 : (2 : Nat) ^ 1 = 2 := by norm_num
      omega
  rw [value_eval m he1 he11 hs52 hall, hexp, (bitsToNat_eq_zero_iff _).mpr hsig]
  cases hsb : m.sign_bit <;> simp

theorem decode_signed_zero_witness :
    (Model.mk true (List.replicate 3 false) (List.replicate 5 false)).value
      = some (2 ^ 63) := by
  rw [decode_signed_zero (Model.mk true (List.replicate 3 false) (List.replicate 5 false))
    (by decide) (by decide) (by decide) (by decide) (by decide) (by decide)]
  decide

/-- Decomposition of the packed pattern into the three fields. -/
theorem packedBits_eq (m : Model) :
    packedBits m = (if m.sign_bit then 1 else 0)
        * 2 ^ (m.exponent_bits.length + m.significand_bits.length)
      + bitsToNat m.exponent_bits * 2 ^ m.significand_bits.length
      + bitsToNat m.significand_bits := by
  rw [packedBits, bitsToNat_cons, bitsToNat_append, List.length_append, pow_add]
  ring

/-- C1 counterexample: at widths 11/52, the bit pattern with sign false,
all exponent bits true and significand 0…01 is a NaN encoding whose
payload is not reproduced: decode returns the canonical quiet NaN
`0x7ff8000000000000`, not the reinterpretation `0x7ff0000000000001` of the
input concatenation. -/
theorem decode_nan_payload_cex :
    (Model.mk false (List.replicate 11 true) (List.replicate 51 false ++ [true])).value
      ≠ some (packedBits (Model.mk false (List.replicate 11 true)
          (List.replicate 51 false ++ [true]))) := by decide

/-- C1 amended: at widths e = 11, s = 52, the decoded bit pattern equals
the MSB-first concatenation sign ‖ exponent ‖ significand for every bit
pattern that is not a NaN encoding (including signed zeros and the two
infinities); for NaN encodings (exponent all true, significand nonzero)
decode instead returns the canonical quiet NaN `0x7ff8000000000000`,
discarding the input's sign bit and significand payload. -/
theorem decode_bit_pattern_refinement (m : Model)
    (he : m.exponent_bits.length = 11) (hs : m.significand_bits.length = 52) :
    m.value = some
      (if m.exponent_bits.all (fun b => b) && m.significand_bits.any (fun b => b)
       then nanBits else packedBits m) := by
  have hpacked := packedBits_eq m
  rw [he, hs] at hpacked
  by_cases hall : m.exponent_bits.all (fun b => b) = true
  · by_cases hany : m.significand_bits.any (fun b => b) = true
    · rw [value_special m hall, hall, hany]
      simp
    · have hany' : m.significand_bits.any (fun b => b) = false := by
        cases h : m.significand_bits.any (fun b => b)
        · rfl
        · exact absurd h hany
      have hE := bitsToNat_all_true _ hall
      rw [he] at hE
      have hS := (bitsToNat_eq_zero_iff _).mpr hany'
      rw [value_special m hall, hall, hany']
      norm_num
      rw [hpacked, hE, hS]
      cases hsb : m.sign_bit
      · rw [if_neg (by simp), if_neg (by simp)]
        norm_num [infBits]
      · rw [if_pos rfl, if_pos rfl]
        norm_num [negInfBits]
  · have hall' : m.exponent_bits.all (fun b => b) = false := by
      cases h : m.exponent_bits.all (fun b => b)
      · rfl
      · exact absurd h hall
    rw [value_eval m (by omega) (by omega) (by omega) hall', hall']
    simp only [Bool.false_and, Bool.false_eq_true, if_false]
    rw [he, hs, hpacked]
    by_cases hany : m.exponent_bits.any (fun b => b) = true
    · rw [hany, if_pos rfl]
      exact congrArg some (by norm_num)
    · have hany' : m.exponent_bits.any (fun b => b) = false := by
        cases h : m.exponent_bits.any (fun b => b)
        · rfl
        · exact absurd h hany
      have hE := (bitsToNat_eq_zero_iff _).mpr hany'
      rw [hany']
      simp only [Bool.false_eq_true, if_false]
      rw [hE]
      exact congrArg some (by norm_num)

theorem decode_bit_pattern_refinement_witness :
    (Model.mk true (List.replicate 11 false)
        (List.replicate 51 false ++ [true])).value
      = some (if (List.replicate 11 false).all (fun b => b)
            && (List.replicate 51 false ++ [true]).any (fun b => b)
          then nanBits
          else packedBits (Model.mk true (List.replicate 11 false)
            (List.replicate 51 false ++ [true]))) :=
  decode_bit_pattern_refinement
    (Model.mk true (List.replicate 11 false) (List.replicate 51 false ++ [true]))
    (by decide) (by decide)

/-! ### List lemmas for resize and toggle -/

theorem listResize_length (l : List Bool) (n : Nat) : (listResize l n).length = n := by
  rw [listResize]
  split
  · rw [List.length_append, List.length_replicate]
    omega
  · rw [List.length_take]
    omega

theorem listResize_getD_low (l : List Bool) (n i : Nat) (hi : i < n)
    (hil : i < l.length) : (listResize l n).getD i false = l.getD i false := by
  rw [listResize]
  split
  · rw [List.getD_eq_getElem?_getD, List.getElem?_append_left hil,
      List.getD_eq_getElem?_getD]
  · rw [List.getD_eq_getElem?_getD, List.getElem?_take_of_lt hi,
      List.getD_eq_getElem?_getD]

theorem listResize_getD_new (l : List Bool) (n i : Nat) (hle : l.length ≤ i)
    (hi : i < n) : (listResize l n).getD i false = false := by
  rw [listResize]
  split
  · rw [List.getD_eq_getElem?_getD, List.getElem?_append_right hle,
      List.getElem?_replicate, if_pos (by omega)]
    rfl
  · rename_i hln
    omega

theorem set_getD_self (l : List Bool) :
    ∀ i, i < l.length → l.set i (l.getD i false) = l := by
  induction l with
  | nil =>
    intro i h
    simp at h
  | cons a t ih =>
    intro i h
    cases i with
    | zero => rfl
    | succ n =>
      have hn : n < t.length := by
        rw [List.length_cons] at h
        omega
      show a :: t.set n (t.getD n false) = a :: t
      rw [ih n hn]

theorem getD_set_self (l : List Bool) (i : Nat) (v : Bool) (h : i < l.length) :
    (l.set i v).getD i false = v := by
  rw [List.getD_eq_getElem?_getD, List.getElem?_set_self h]
  rfl

/-- Unfolding of the `ToggleBit` case of `update` on an explicit model. -/
theorem update_toggle (sg : Bool) (eb fb : List Bool) (i : Nat) :
    update (Msg.ToggleBit i) (Model.mk sg eb fb) =
      if i = 0 then Model.mk (!sg) eb fb
      else if i - 1 < eb.length then
        Model.mk sg (eb.set (i - 1) (!(eb.getD (i - 1) false))) fb
      else
        Model.mk sg eb
          (fb.set (i - 1 - eb.length) (!(fb.getD (i - 1 - eb.length) false))) :=
  rfl

/-- C7: `ToggleBit` is an involution: toggling the same flat index twice
returns the model (all bits and both region lengths) to its prior state. -/
theorem toggle_bit_involution (m : Model) (i : Nat) :
    update (Msg.ToggleBit i) (update (Msg.ToggleBit i) m) = m := by
  obtain ⟨sg, eb, fb⟩ := m
  by_cases h0 : i = 0
  · subst h0
    have hinner : update (Msg.ToggleBit 0) (Model.mk sg eb fb)
        = Model.mk (!sg) eb fb := by
      rw [update_toggle, if_pos rfl]
    rw [hinner, update_toggle, if_pos rfl, Bool.not_not]
  · by_cases h1 : i - 1 < eb.length
    · have hinner : update (Msg.ToggleBit i) (Model.mk sg eb fb)
          = Model.mk sg (eb.set (i - 1) (!(eb.getD (i - 1) false))) fb := by
        rw [update_toggle, if_neg h0, if_pos h1]
      rw [hinner, update_toggle, if_neg h0,
        if_pos (show i - 1 < (eb.set (i - 1) (!(eb.getD (i - 1) false))).length by
          rw [List.length_set]; exact h1),
        getD_set_self _ _ _ h1, Bool.not_not, List.set_set, set_getD_self _ _ h1]
    · by_cases h2 : i - 1 - eb.length < fb.length
      · have hinner : update (Msg.ToggleBit i) (Model.mk sg eb fb)
            = Model.mk sg eb
              (fb.set (i - 1 - eb.length) (!(fb.getD (i - 1 - eb.length) false))) := by
          rw [update_toggle, if_neg h0, if_neg h1]
        rw [hinner, update_toggle, if_neg h0, if_neg h1,
          getD_set_self _ _ _ h2, Bool.not_not, List.set_set,
          set_getD_self _ _ h2]
      · have hle : fb.length ≤ i - 1 - eb.length := by omega
        have hinner : update (Msg.ToggleBit i) (Model.mk sg eb fb)
            = Model.mk sg eb fb := by
          rw [update_toggle, if_neg h0, if_neg h1, List.set_eq_of_length_le hle]
        rw [hinner, hinner]

/-- C8: toggling a flat index at or beyond 1 + len(exponent) +
len(significand) is a no-op: the whole model is unchanged and no error is
signalled. -/
theorem toggle_bit_out_of_range_noop (m : Model) (i : Nat)
    (h : 1 + m.exponent_bits.length + m.significand_bits.length ≤ i) :
    update (Msg.ToggleBit i) m = m := by
  obtain ⟨sg, eb, fb⟩ := m
  simp only at h
  rw [update_toggle, if_neg (by omega), if_neg (by omega)]
  have hj : fb.length ≤ i - 1 - eb.length := by omega
  rw [List.set_eq_of_length_le hj]

theorem toggle_bit_out_of_range_noop_witness :
    update (Msg.ToggleBit 64) initModel = initModel :=
  toggle_bit_out_of_range_noop initModel 64 (by decide)

/-- C6: `SetExpSize n` with n in [1,11] sets the exponent length to exactly
n, preserves all bits at indices below n, fills newly created indices with
false, discards truncated ones, and leaves the sign and significand alone
(symmetrically for `SetSigSize` with n in [1,52]); consequently resizing
the exponent from 11 to 4 and back to 11 yields the original first 4 bits
followed by 7 false bits. -/
theorem resize_preserves_low_bits (m : Model) (ne ns : Nat)
    (hne1 : 1 ≤ ne) (hne11 : ne ≤ 11) (hns1 : 1 ≤ ns) (hns52 : ns ≤ 52) :
    ((update (Msg.SetExpSize ne) m).exponent_bits.length = ne
      ∧ (∀ i, i < ne → i < m.exponent_bits.length →
          (update (Msg.SetExpSize ne) m).exponent_bits.getD i false
            = m.exponent_bits.getD i false)
      ∧ (∀ i, m.exponent_bits.length ≤ i → i < ne →
          (update (Msg.SetExpSize ne) m).exponent_bits.getD i false = false)
      ∧ (update (Msg.SetExpSize ne) m).sign_bit = m.sign_bit
      ∧ (update (Msg.SetExpSize ne) m).significand_bits = m.significand_bits)
    ∧ ((update (Msg.SetSigSize ns) m).significand_bits.length = ns
      ∧ (∀ i, i < ns → i < m.significand_bits.length →
          (update (Msg.SetSigSize ns) m).significand_bits.getD i false
            = m.significand_bits.getD i false)
      ∧ (∀ i, m.significand_bits.length ≤ i → i < ns →
          (update (Msg.SetSigSize ns) m).significand_bits.getD i false = false)
      ∧ (update (Msg.SetSigSize ns) m).sign_bit = m.sign_bit
      ∧ (update (Msg.SetSigSize ns) m).exponent_bits = m.exponent_bits)
    ∧ (m.exponent_bits.length = 11 →
        (update (Msg.SetExpSize 11) (update (Msg.SetExpSize 4) m)).exponent_bits
          = m.exponent_bits.take 4 ++ List.replicate 7 false) := by
  refine ⟨⟨listResize_length _ _,
      fun i h1 h2 => listResize_getD_low _ _ _ h1 h2,
      fun i h1 h2 => listResize_getD_new _ _ _ h1 h2, rfl, rfl⟩,
    ⟨listResize_length _ _,
      fun i h1 h2 => listResize_getD_low _ _ _ h1 h2,
      fun i h1 h2 => listResize_getD_new _ _ _ h1 h2, rfl, rfl⟩,
    fun h11 => ?_⟩
  show listResize (listResize m.exponent_bits 4) 11 = _
  have hinner : listResize m.exponent_bits 4 = m.exponent_bits.take 4 := by
    rw [listResize, if_neg (by omega)]
  rw [hinner]
  have hlen : (m.exponent_bits.take 4).length = 4 := by
    rw [List.length_take]
    omega
  rw [listResize, if_pos (by omega), hlen]

theorem resize_preserves_low_bits_witness :
    (update (Msg.SetExpSize 11) (update (Msg.SetExpSize 4) initModel)).exponent_bits
      = initModel.exponent_bits.take 4 ++ List.replicate 7 false :=
  (resize_preserves_low_bits initModel 4 7 (by decide) (by decide) (by decide)
    (by decide)).2.2 (by decide)

/-- C10: the resize mutators never clamp and have no error branch: for
every n (including 0 and values above the documented maxima), `SetExpSize n`
and `SetSigSize n` set the region length to exactly n, so an out-of-range
call yields a model violating the documented length invariant instead of
being rejected. -/
theorem resize_no_clamp (m : Model) (n : Nat) :
    (update (Msg.SetExpSize n) m).exponent_bits.length = n
    ∧ (update (Msg.SetSigSize n) m).significand_bits.length = n :=
  ⟨listResize_length _ _, listResize_length _ _⟩

/-! ### Rational semantics of nonnegative double bit patterns -/

theorem toRatPos_eq_normal (p : Nat) (h : p / 2 ^ 52 ≠ 0) :
    toRatPos p = ((2 ^ 52 + p % 2 ^ 52 : ℕ) : ℚ)
      * 2 ^ (((p / 2 ^ 52 : ℕ) : ℤ) - 1075) := by
  rw [toRatPos, expField, sigField, if_neg h]

theorem toRatPos_eq_sub (p : Nat) (h : p / 2 ^ 52 = 0) :
    toRatPos p = ((p % 2 ^ 52 : ℕ) : ℚ) * 2 ^ (-1074 : ℤ) := by
  rw [toRatPos, expField, sigField, if_pos h]

theorem toRatPos_zero : toRatPos 0 = 0 := by
  rw [toRatPos_eq_sub 0 (by norm_num)]
  norm_num

theorem toRatPos_strictMono {p q : Nat} (h : p < q) : toRatPos p < toRatPos q := by
  have hsp : p % 2 ^ 52 < 2 ^ 52 := Nat.mod_lt _ (by norm_num)
  have hsq : q % 2 ^ 52 < 2 ^ 52 := Nat.mod_lt _ (by norm_num)
  have hdp := Nat.div_add_mod p (2 ^ 52)
  have hdq := Nat.div_add_mod q (2 ^ 52)
  have hdivle : p / 2 ^ 52 ≤ q / 2 ^ 52 := Nat.div_le_div_right (le_of_lt h)
  have hz2 : (0 : ℚ) < 2 := by norm_num
  rcases Nat.eq_or_lt_of_le hdivle with heq | hlt
  · have hmod : p % 2 ^ 52 < q % 2 ^ 52 := by omega
    by_cases h0 : p / 2 ^ 52 = 0
    · rw [toRatPos_eq_sub p h0, toRatPos_eq_sub q (by omega)]
      exact mul_lt_mul_of_pos_right (by exact_mod_cast hmod) (zpow_pos hz2 _)
    · rw [toRatPos_eq_normal p h0, toRatPos_eq_normal q (by omega), ← heq]
      refine mul_lt_mul_of_pos_right ?_ (zpow_pos hz2 _)
      exact_mod_cast (by omega : 2 ^ 52 + p % 2 ^ 52 < 2 ^ 52 + q % 2 ^ 52)
  · have hq0 : q / 2 ^ 52 ≠ 0 := by omega
    have key : toRatPos p < (2 : ℚ) ^ 52 * 2 ^ (((q / 2 ^ 52 : ℕ) : ℤ) - 1075) := by
      by_cases h0 : p / 2 ^ 52 = 0
      · rw [toRatPos_eq_sub p h0]
        calc ((p % 2 ^ 52 : ℕ) : ℚ) * 2 ^ (-1074 : ℤ)
            < (2 : ℚ) ^ 52 * 2 ^ (-1074 : ℤ) := by
              refine mul_lt_mul_of_pos_right ?_ (zpow_pos hz2 _)
              exact_mod_cast hsp
          _ = (2 : ℚ) ^ 52 * 2 ^ ((1 : ℤ) - 1075) := by norm_num
          _ ≤ (2 : ℚ) ^ 52 * 2 ^ (((q / 2 ^ 52 : ℕ) : ℤ) - 1075) := by
              refine mul_le_mul_of_nonneg_left ?_ (by positivity)
              refine zpow_le_zpow_right₀ (by norm_num) ?_
              have h1q : (1 : ℕ) ≤ q / 2 ^ 52 := by omega
              omega
      · rw [toRatPos_eq_normal p h0]
        have hpq : (p / 2 ^ 52 : ℕ) + 1 ≤ q / 2 ^ 52 := by omega
        calc ((2 ^ 52 + p % 2 ^ 52 : ℕ) : ℚ) * 2 ^ (((p / 2 ^ 52 : ℕ) : ℤ) - 1075)
            < (2 : ℚ) ^ 53 * 2 ^ (((p / 2 ^ 52 : ℕ) : ℤ) - 1075) := by
              refine mul_lt_mul_of_pos_right ?_ (zpow_pos hz2 _)
              have hc : (2 ^ 52 + p % 2 ^ 52 : ℕ) < 2 ^ 53 := by omega
              exact_mod_cast hc
          _ = (2 : ℚ) ^ 52 * 2 ^ (((p / 2 ^ 52 : ℕ) : ℤ) + 1 - 1075) := by
              rw [show ((p / 2 ^ 52 : ℕ) : ℤ) + 1 - 1075
                  = (((p / 2 ^ 52 : ℕ) : ℤ) - 1075) + 1 by ring,
                zpow_add_one₀ (by norm_num : (2 : ℚ) ≠ 0), pow_succ]
              ring
          _ ≤ (2 : ℚ) ^ 52 * 2 ^ (((q / 2 ^ 52 : ℕ) : ℤ) - 1075) := by
              refine mul_le_mul_of_nonneg_left ?_ (by positivity)
              refine zpow_le_zpow_right₀ (by norm_num) ?_
              omega
    calc toRatPos p < (2 : ℚ) ^ 52 * 2 ^ (((q / 2 ^ 52 : ℕ) : ℤ) - 1075) := key
      _ ≤ ((2 ^ 52 + q % 2 ^ 52 : ℕ) : ℚ)
          * 2 ^ (((q / 2 ^ 52 : ℕ) : ℤ) - 1075) := by
          refine mul_le_mul_of_nonneg_right ?_ (zpow_nonneg (by norm_num) _)
          have hc : (2 ^ 52 : ℕ) ≤ 2 ^ 52 + q % 2 ^ 52 := by omega
          exact_mod_cast hc
      _ = toRatPos q := (toRatPos_eq_normal q hq0).symm

theorem toRatPos_mono {p q : Nat} (h : p ≤ q) : toRatPos p ≤ toRatPos q := by
  rcases Nat.eq_or_lt_of_le h with rfl | hlt
  · exact le_refl _
  · exact le_of_lt (toRatPos_strictMono hlt)

theorem toRatPos_pos {p : Nat} (hp : 0 < p) : 0 < toRatPos p := by
  have h := toRatPos_strictMono hp
  rwa [toRatPos_zero] at h

theorem toRatPos_bits1e10 : toRatPos bits1e10 = 10 ^ 10 := by
  have hd : bits1e10 / 2 ^ 52 = 1056 := by decide
  have hm : bits1e10 % 2 ^ 52 = 739280372629504 := by decide
  rw [toRatPos_eq_normal bits1e10 (by rw [hd]; norm_num), hd, hm]
  norm_num

theorem toRatPos_bits1em10_ge : (1 : ℚ) / 10 ^ 10 ≤ toRatPos bits1em10 := by
  have hd : bits1em10 / 2 ^ 52 = 989 := by decide
  have hm : bits1em10 % 2 ^ 52 = 3233525618163131 := by decide
  rw [toRatPos_eq_normal bits1em10 (by rw [hd]; norm_num), hd, hm]
  norm_num

theorem toRatPos_bits1em10_pred_lt :
    toRatPos (bits1em10 - 1) < 1 / 10 ^ 10 := by
  have hd : (bits1em10 - 1) / 2 ^ 52 = 989 := by decide
  have hm : (bits1em10 - 1) % 2 ^ 52 = 3233525618163130 := by decide
  rw [toRatPos_eq_normal (bits1em10 - 1) (by rw [hd]; norm_num), hd, hm]
  norm_num

theorem toRatPos_bits123 : toRatPos bits123 = 123 := by
  have hd : bits123 / 2 ^ 52 = 1029 := by decide
  have hm : bits123 % 2 ^ 52 = 4151755906482176 := by decide
  rw [toRatPos_eq_normal bits123 (by rw [hd]; norm_num), hd, hm]
  norm_num

theorem toRatPos_bits1e12 : toRatPos bits1e12 = 10 ^ 12 := by
  have hd : bits1e12 / 2 ^ 52 = 1062 := by decide
  have hm : bits1e12 % 2 ^ 52 = 3688400372629504 := by decide
  rw [toRatPos_eq_normal bits1e12 (by rw [hd]; norm_num), hd, hm]
  norm_num

/-- The branch condition of `view_value`, characterised by the rational
value of the (nonnegative) pattern it tests. -/
theorem fixed_cond_iff (a : Nat) (ha : a < 2 ^ 63) :
    (f64EqPos a 0 || (f64LePos bits1em10 a && f64LtPos a bits1e10)) = true
      ↔ (expField a < 2047
        ∧ (toRatPos a = 0
          ∨ ((1 : ℚ) / 10 ^ 10 ≤ toRatPos a ∧ toRatPos a < 10 ^ 10))) := by
  have haE : expField a ≤ 2047 := by
    rw [expField]
    have h1 : a < 2 ^ 52 * 2048 := by
      have h2 : (2 : Nat) ^ 52 * 2048 = 2 ^ 63 := by norm_num
      omega
    have := Nat.div_lt_of_lt_mul h1
    omega
  by_cases hNaN : isNaNBits a = true
  · have hE : expField a = 2047 := by
      rw [isNaNBits] at hNaN
      have h2 := Bool.and_eq_true_iff.mp hNaN
      simpa using h2.1
    simp [f64EqPos, f64LePos, f64LtPos, hNaN, hE]
  · have hNaN' : isNaNBits a = false := by
      cases hx : isNaNBits a
      · rfl
      · exact absurd hx hNaN
    by_cases hE : expField a = 2047
    · have hsig0 : sigField a = 0 := by
        rw [isNaNBits, hE] at hNaN'
        simpa using hNaN'
      have haval : a = 2047 * 2 ^ 52 := by
        have h3 := Nat.div_add_mod a (2 ^ 52)
        rw [expField] at hE
        rw [sigField] at hsig0
        omega
      subst haval
      have hL : (f64EqPos (2047 * 2 ^ 52) 0
          || (f64LePos bits1em10 (2047 * 2 ^ 52)
            && f64LtPos (2047 * 2 ^ 52) bits1e10)) = false := by decide
      have hR : ¬ expField (2047 * 2 ^ 52) < 2047 := by decide
      rw [hL]
      constructor
      · intro hfalse
        exact (Bool.false_ne_true hfalse).elim
      · rintro ⟨hlt, -⟩
        exact absurd hlt hR
    · have hElt : expField a < 2047 := by omega
      have c1 : isNaNBits 0 = false := by decide
      have c2 : isNaNBits bits1em10 = false := by decide
      have c3 : isNaNBits bits1e10 = false := by decide
      have hbool : (f64EqPos a 0
          || (f64LePos bits1em10 a && f64LtPos a bits1e10)) = true
          ↔ (a = 0 ∨ (bits1em10 ≤ a ∧ a < bits1e10)) := by
        simp [f64EqPos, f64LePos, f64LtPos, hNaN', c1, c2, c3]
      rw [hbool]
      constructor
      · rintro (rfl | ⟨hge, hlt⟩)
        · exact ⟨hElt, Or.inl toRatPos_zero⟩
        · refine ⟨hElt, Or.inr ⟨?_, ?_⟩⟩
          · calc (1 : ℚ) / 10 ^ 10 ≤ toRatPos bits1em10 := toRatPos_bits1em10_ge
              _ ≤ toRatPos a := toRatPos_mono hge
          · calc toRatPos a < toRatPos bits1e10 := toRatPos_strictMono hlt
              _ = 10 ^ 10 := toRatPos_bits1e10
      · rintro ⟨-, hc⟩
        rcases hc with h0 | ⟨hge, hlt⟩
        · left
          by_contra hne
          exact absurd h0 (ne_of_gt (toRatPos_pos (Nat.pos_of_ne_zero hne)))
        · right
          constructor
          · by_contra hlt2
            push_neg at hlt2
            have h1 : a ≤ bits1em10 - 1 := by omega
            have h2 : toRatPos a ≤ toRatPos (bits1em10 - 1) := toRatPos_mono h1
            have h3 := toRatPos_bits1em10_pred_lt
            linarith
          · by_contra hge2
            push_neg at hge2
            have h2 : toRatPos bits1e10 ≤ toRatPos a := toRatPos_mono hge2
            rw [toRatPos_bits1e10] at h2
            linarith

/-- C9: the display formatter chooses fixed/short decimal notation exactly
when the decoded value's absolute value is 0.0 or lies (as a real number)
in the half-open interval [1e-10, 1e10), and scientific notation otherwise
(NaN and the infinities fall to scientific); in particular the double 123.0
renders in fixed notation and the double 1e12 in scientific notation. -/
theorem view_value_notation_choice :
    (∀ v, v < 2 ^ 64 →
      (usesFixedNotation v = true ↔
        (expField (absBits v) < 2047
          ∧ (toRatPos (absBits v) = 0
            ∨ ((1 : ℚ) / 10 ^ 10 ≤ toRatPos (absBits v)
                ∧ toRatPos (absBits v) < 10 ^ 10)))))
    ∧ usesFixedNotation bits123 = true
    ∧ toRatPos bits123 = 123
    ∧ usesFixedNotation bits1e12 = false
    ∧ toRatPos bits1e12 = 10 ^ 12 := by
  refine ⟨fun v hv => ?_, by decide, toRatPos_bits123, by decide, toRatPos_bits1e12⟩
  have ha : absBits v < 2 ^ 63 := Nat.mod_lt _ (by norm_num)
  rw [usesFixedNotation]
  exact fixed_cond_iff (absBits v) ha

theorem view_value_notation_choice_witness :
    usesFixedNotation 0 = true ↔
      (expField (absBits 0) < 2047
        ∧ (toRatPos (absBits 0) = 0
          ∨ ((1 : ℚ) / 10 ^ 10 ≤ toRatPos (absBits 0)
              ∧ toRatPos (absBits 0) < 10 ^ 10))) :=
  view_value_notation_choice.1 0 (by norm_num)
